import Mathlib

/-!
Verification of the BinSync repository client (`binsync/core/client.py`).

The development shallowly embeds the data model and the operations of the
`Client` class.  Git objects are modelled structurally: a tree is an
association list from blob path to blob content, a commit carries its root
tree, its authored date and its message, and a reference (local head or
remote-tracking reference) carries a name, a remoteness flag and the commit
it points to.  Python strings are modelled as Lean `String`s, and the exact
Python primitives used by the source (`str.endswith`, the `in` substring
test, `str.split`, `str.strip("\n")`, `re.findall`) are given faithful
executable counterparts below.
-/

set_option maxRecDepth 4000

namespace Binsync

/-! ### Python string primitives -/

/-- Python substring containment `needle in hay` over character lists:
true iff `needle` occurs contiguously inside `hay`. -/
def containsSub (needle : List Char) : List Char → Bool
  | [] => needle.isPrefixOf []
  | a :: t => needle.isPrefixOf (a :: t) || containsSub needle t

/-- Python `needle in hay` for strings. -/
def pyContains (hay needle : String) : Bool :=
  containsSub needle.data hay.data

/-- Python `s.endswith(suffix)`. -/
def pyEndsWith (s suffix : String) : Bool :=
  suffix.data.isSuffixOf s.data

/-- Python `s.split(sep)` for a one-character separator, over character
lists (structurally recursive, so it evaluates inside the kernel).  Always
yields a non-empty list, exactly like `str.split`. -/
def splitOnChar (sep : Char) : List Char → List (List Char)
  | [] => [[]]
  | c :: rest =>
      match splitOnChar sep rest with
      | [] => if c = sep then [[], []] else [[c]]
      | h :: t => if c = sep then [] :: h :: t else (c :: h) :: t

/-- Python `name.split("/")[-1]`: the last `/`-separated segment
(`str.split` always yields a non-empty list, so indexing `[-1]` is total). -/
def lastSegment (s : String) : String :=
  ⟨(splitOnChar '/' s.data).getLastD []⟩

/-- First `/`-separated path component of a reference name; this is what
gitpython's `RemoteReference.remote_name` returns for a remote-tracking
reference such as `origin/binsync/alice`. -/
def headSegment (s : String) : String :=
  ⟨(splitOnChar '/' s.data).headD []⟩

/-- Python `s.strip("\n")` over character lists: removes `'\n'` characters
from BOTH ends. -/
def stripNLChars (l : List Char) : List Char :=
  ((l.dropWhile (· == '\n')).reverse.dropWhile (· == '\n')).reverse

/-- Python `s.strip("\n")`: removes `'\n'` characters from BOTH ends. -/
def pyStripNewlines (s : String) : String :=
  ⟨stripNLChars s.data⟩

/-- The comparator the specification describes for the stored binary hash:
only TRAILING newlines stripped on read (spec §6).  Kept separate from
`pyStripNewlines`, which renders what the source actually executes. -/
def stripTrailingNewlines (s : String) : String :=
  ⟨(s.data.reverse.dropWhile (· == '\n')).reverse⟩

/-! ### Git data model -/

/-- A git tree, flattened: association list from blob path to blob content. -/
abbrev Tree := List (String × String)

/-- Lookup of a blob in a tree (`tree["path"]`, `None`-free form). -/
def lookupTree (t : Tree) (path : String) : Option String :=
  match t with
  | [] => none
  | (p, c) :: rest => if p = path then some c else lookupTree rest path

/-- Write a blob into a tree / index: replace in place if the path exists,
append otherwise (git index semantics). -/
def setTree (path content : String) : Tree → Tree
  | [] => [(path, content)]
  | (p, c) :: rest =>
      if p = path then (p, content) :: rest else (p, c) :: setTree path content rest

/-- A commit: root tree, authored date, message. -/
structure Commit where
  tree : Tree
  authoredDate : Nat
  message : String
deriving DecidableEq

/-- A git reference: a local head (`is_remote = false`) or a remote-tracking
reference (`is_remote = true`, name of the shape `<remote>/...`). -/
structure Ref where
  name : String
  is_remote : Bool
  commit : Commit
deriving DecidableEq

/-- gitpython `ref.remote_name`: the first path component of the name. -/
def Ref.remote_name (r : Ref) : String := headSegment r.name

/-- The repository as the client sees it: all references (`repo.refs`), the
checked-out branch (`HEAD`), and the index.  `repo.branches` is the
restriction of `refs` to local heads. -/
structure Repo where
  refs : List Ref
  headBranch : String
  index : Tree
deriving DecidableEq

/-- `repo.branches`: only the local heads. -/
def Repo.branches (repo : Repo) : List Ref :=
  repo.refs.filter (fun r => !r.is_remote)

/-- The immutable per-client configuration used by the claims: the master
user and the configured remote name. -/
structure ClientCfg where
  masterUser : String
  remote : String
deriving DecidableEq

/-- `BINSYNC_BRANCH_PREFIX = 'binsync'`. -/
def BINSYNC_BRANCH_PREFIX : String := "binsync"

/-- `BINSYNC_ROOT_BRANCH = 'binsync/__root__'`. -/
def BINSYNC_ROOT_BRANCH : String := "binsync/__root__"

/-- `Client.user_branch_name`: `f"{BINSYNC_BRANCH_PREFIX}/{self.master_user}"`. -/
def user_branch_name (cfg : ClientCfg) : String :=
  BINSYNC_BRANCH_PREFIX ++ "/" ++ cfg.masterUser

/-! ### Best-ref selection (`Client._get_best_refs`) -/

/-- Association-list lookup used to model the Python `dict` of candidates. -/
def lookupA (k : String) : List (String × Ref) → Option Ref
  | [] => none
  | (k2, v) :: t => if k = k2 then some v else lookupA k t

/-- Association-list write modelling Python `dict` assignment: replace in
place if the key exists, append otherwise (dicts preserve insertion order). -/
def setA (k : String) (v : Ref) : List (String × Ref) → List (String × Ref)
  | [] => [(k, v)]
  | (k2, v2) :: t => if k = k2 then (k2, v) :: t else (k2, v2) :: setA k v t

/-- One iteration of the loop body of `_get_best_refs`:
skip refs whose name does not contain `'binsync/'`; group by the last path
segment; if the group already has a candidate, keep it unless the new ref is
remote with `remote_name` equal to the configured remote, in which case the
new ref replaces the candidate. -/
def bestRefsStep (remote : String) (cands : List (String × Ref)) (ref : Ref) :
    List (String × Ref) :=
  if !pyContains ref.name (BINSYNC_BRANCH_PREFIX ++ "/") then cands
  else
    let branchName := lastSegment ref.name
    match lookupA branchName cands with
    | some _ =>
        if !ref.is_remote || Ref.remote_name ref != remote then cands
        else setA branchName ref cands
    | none => setA branchName ref cands

/-- `Client._get_best_refs(repo)`: fold of the loop body over `repo.refs`. -/
def get_best_refs (remote : String) (refs : List Ref) : List (String × Ref) :=
  refs.foldl (bestRefsStep remote) []

/-- A ref that would replace an existing candidate: remote, with
`remote_name` equal to the configured remote. -/
def matchingRemote (remote : String) (r : Ref) : Bool :=
  r.is_remote && Ref.remote_name r == remote

/-- The refs of one group: name contains `'binsync/'` and last segment `g`. -/
def groupRefs (g : String) (refs : List Ref) : List Ref :=
  refs.filter (fun r =>
    pyContains r.name (BINSYNC_BRANCH_PREFIX ++ "/") && lastSegment r.name == g)

/-- Declarative characterisation of the ref `_get_best_refs` keeps for a
group: the LAST reference of the group that is a remote of the configured
remote, and when the group has no such reference, the FIRST reference of
the group. -/
def bestRefSpec (remote g : String) (refs : List Ref) : Option Ref :=
  match ((groupRefs g refs).filter (matchingRemote remote)).getLast? with
  | some r => some r
  | none => (groupRefs g refs).head?

/-! ### Trees and state (`Client._get_tree`, `State`) -/

/-- Python `max(options, key=...)`: strictly later elements replace, so the
FIRST maximal element is returned on ties. -/
def maxByAuthoredDate (o : Ref) (os : List Ref) : Ref :=
  os.foldl (fun best r =>
    if best.commit.authoredDate < r.commit.authoredDate then r else best) o

/-- Errors surfaced by the read path of the client. -/
inductive GetStateErr where
  /-- `ValueError(f'No such user "{user}" found in repository')` from
  `Client._get_tree`. -/
  | noSuchUser (user : String)
deriving DecidableEq

/-- `Client._get_tree(user, repo)`: filter refs whose name ends with
`binsync/<user>`; raise `ValueError` when there are none; otherwise return
the tree of the commit with the newest authored date. -/
def get_tree (user : String) (repo : Repo) : Except GetStateErr Tree :=
  match repo.refs.filter
      (fun r => pyEndsWith r.name (BINSYNC_BRANCH_PREFIX ++ "/" ++ user)) with
  | [] => Except.error (GetStateErr.noSuchUser user)
  | o :: os => Except.ok (maxByAuthoredDate o os).commit.tree

/-- The per-user annotation snapshot.  The engine only inspects `user` and
`dirty`; `files` stands for the opaque serialized payload, dumped under
`<user>/` in the working tree. -/
structure State where
  user : String
  files : Tree
  dirty : Bool
deriving DecidableEq

/-- Modelled from the spec: `State(user, client=...)` — the freshly
synthesized empty state owned by `user` (state module is outside the client
source). -/
def State.emptyFor (user : String) : State :=
  ⟨user, [], false⟩

/-- Modelled from the spec: `State.parse(tree, version, client)` returns a
`State` or fails with `MetadataNotFoundError`; per spec §6 the parse is
driven by the `metadata.toml` blob of the tree, so the model fails with
metadata-not-found exactly when that blob is absent, and otherwise yields
the state of the user recorded in the metadata.  `none` is the
`MetadataNotFoundError` outcome. -/
def State.parse (tree : Tree) : Option State :=
  match lookupTree tree "metadata.toml" with
  | some content => some ⟨content, tree, false⟩
  | none => none

/-- `Client.get_state(user=None, ...)`: default the user to the master
user; obtain the tree via `_get_tree` (its `ValueError` propagates, it is
not caught); run `State.parse`; catch ONLY the metadata-not-found failure,
synthesizing an empty master-owned state when the requested user is the
master user and leaving `state = None` otherwise. -/
def get_state (cfg : ClientCfg) (repo : Repo) (user : Option String) :
    Except GetStateErr (Option State) :=
  let u := user.getD cfg.masterUser
  match get_tree u repo with
  | Except.error e => Except.error e
  | Except.ok tree =>
      match State.parse tree with
      | some s => Except.ok (some s)
      | none =>
          if u = cfg.masterUser then Except.ok (some (State.emptyFor cfg.masterUser))
          else Except.ok none

/-! ### Committing (`Client.commit_state`) -/

/-- Errors raised on the commit path. -/
inductive CommitErr where
  /-- `ExternalUserCommitError`. -/
  | externalUserCommit (master user : String)
  /-- The `git checkout <user branch>` failed because no such local branch
  exists (also the `StopIteration` of the branch lookup). -/
  | checkoutFailed
deriving DecidableEq

/-- Find the local branch of a given name
(`next(o for o in self.repo.branches if o.name == name)` / checkout target). -/
def findBranch (repo : Repo) (name : String) : Option Ref :=
  repo.branches.find? (fun r => r.name == name)

/-- `Client._checkout_to_master_user` / `git checkout <name>` with a clean
working tree: `HEAD` moves to the branch and the index is reset to the tree
of its head commit. -/
def checkout (repo : Repo) (name : String) : Option Repo :=
  match findBranch repo name with
  | none => none
  | some b => some { repo with headBranch := name, index := b.commit.tree }

/-- Modelled from the spec: `state.dump(index)` (state module is outside the
client source) writes the state's files under `<user>/` into the index; the
subsequent `index.add([os.path.join(state.user, "*")])` stages the same
paths, so the two steps together are one index update. -/
def dumpState (st : State) (index : Tree) : Tree :=
  st.files.foldl (fun t pc => setTree (st.user ++ "/" ++ pc.1) pc.2 t) index

/-- Move a local branch head to a new commit
(`master_user_branch.commit = commit`; `index.commit` moves the checked-out
branch, which is the same branch here). -/
def setBranchCommit (name : String) (c : Commit) (refs : List Ref) : List Ref :=
  refs.map (fun r => if !r.is_remote && r.name == name then { r with commit := c } else r)

/-- The full outcome of one `commit_state` call: the repository afterwards,
the `_last_commit_ts` afterwards, the state's dirty flag afterwards, the
exception raised (if any), and the commit created (if any). -/
structure CommitOutcome where
  repo : Repo
  lastCommitTs : Option Nat
  stateDirty : Bool
  err : Option CommitErr
  newCommit : Option Commit
deriving DecidableEq

/-- `Client.commit_state(state, msg)`:
raise `ExternalUserCommitError` when `master_user != state.user`; check out
the user branch; dump the state and stage `<user>/*`; if the index does not
differ from `HEAD`, return; otherwise commit, record `_last_commit_ts`,
move the user branch head, and clear the dirty flag.  `ts` is the
`_last_commit_ts` before the call and `now` the commit wall-clock time. -/
def commit_state (cfg : ClientCfg) (repo : Repo) (ts : Option Nat) (now : Nat)
    (st : State) (msg : String) : CommitOutcome :=
  if cfg.masterUser ≠ st.user then
    ⟨repo, ts, st.dirty, some (CommitErr.externalUserCommit cfg.masterUser st.user), none⟩
  else
    match checkout repo (user_branch_name cfg) with
    | none => ⟨repo, ts, st.dirty, some CommitErr.checkoutFailed, none⟩
    | some repo1 =>
        let index2 := dumpState st repo1.index
        if index2 = repo1.index then
          ⟨{ repo1 with index := index2 }, ts, st.dirty, none, none⟩
        else
          let c : Commit := ⟨index2, now, msg⟩
          ⟨{ repo1 with
              index := index2
              refs := setBranchCommit (user_branch_name cfg) c repo1.refs },
            some now, false, none, some c⟩

/-! ### Stored-hash check (`Client._get_stored_hash` and the warning) -/

/-- `ConnectionWarnings.HASH_MISMATCH = 0`. -/
def HASH_MISMATCH : Nat := 0

/-- `Client._get_stored_hash`: take the first ref whose name ends with
`binsync/__root__` (IndexError — `none` — when there is none), read its
`binary_hash` blob (KeyError — `none` — when absent), and strip newline
characters from both ends (`.strip("\n")`). -/
def get_stored_hash (repo : Repo) : Option String :=
  match repo.refs.filter (fun r => pyEndsWith r.name BINSYNC_ROOT_BRANCH) with
  | [] => none
  | r :: _ => (lookupTree r.commit.tree "binary_hash").map pyStripNewlines

/-- The hash-comparison step of `Client._get_or_init_binsync_repo`
(`stored = self._get_stored_hash(); if stored != self.binary_hash: ...`):
`none` when reading the stored hash raised, otherwise the
`connection_warnings` contributed by the step. -/
def hash_check_warnings (repo : Repo) (binaryHash : String) : Option (List Nat) :=
  (get_stored_hash repo).map
    (fun stored => if stored ≠ binaryHash then [HASH_MISMATCH] else [])

/-! ### The atomic wrapper (`atomic_git_action`) -/

/-- What one pass through the `atomic_git_action` wrapper did:
whether a job was submitted to the scheduler, the value returned to the
caller (or the failure re-raised by `schedule_and_wait_job`), and the value
installed into the cache by `_set_cache` (if any). -/
structure AtomicOutcome (V E : Type) where
  scheduled : Bool
  result : Except E V
  cacheInstalled : Option V

/-- The scheduling arm of the wrapper.  Modelled from the spec: the
scheduler (outside the client source) blocks the caller and returns the
job's value or re-raises its failure; `jobResult` is that outcome.  On
success the wrapper then runs `_set_cache`; a raised failure propagates
before `_set_cache` is reached. -/
def scheduleArm {V E : Type} (jobResult : Except E V) : AtomicOutcome V E :=
  match jobResult with
  | Except.ok v => ⟨true, Except.ok v, some v⟩
  | Except.error e => ⟨true, Except.error e, none⟩

/-- `atomic_git_action`: unless `no_cache` was requested, consult the cache
on the caller thread (`cached` is what `_check_cache_` returned) and return
a hit immediately; otherwise schedule the job, block, and install the
result into the cache. -/
def atomic_git_action {V E : Type} (noCache : Bool) (cached : Option V)
    (jobResult : Except E V) : AtomicOutcome V E :=
  if noCache then scheduleArm jobResult
  else
    match cached with
    | some v => ⟨false, Except.ok v, none⟩
    | none => scheduleArm jobResult

/-! ### SSH agent environment (`Client.ssh_agent_env`) -/

/-- `Client.ssh_agent_env`: if both the agent pid and the socket path were
supplied, the two well-known variables (values as strings); otherwise the
empty map. -/
def ssh_agent_env (sshAgentPid : Option Int) (sshAuthSock : Option String) :
    List (String × String) :=
  match sshAgentPid, sshAuthSock with
  | some pid, some sock => [("SSH_AGENT_PID", toString pid), ("SSH_AUTH_SOCK", sock)]
  | _, _ => []

/-! ### Username validation at construction (`Client.__init__`) -/

/-- The username check of `Client.__init__`:
`master_user.endswith('/') or '__root__' in master_user`. -/
def badUsername (u : String) : Bool :=
  pyEndsWith u "/" || pyContains u "__root__"

/-- The construction prefix of `Client.__init__` around the username check:
the pair of (repository operations performed, outcome).  The check happens
before `_get_or_init_binsync_repo`, the worker start and the user-branch
setup, so a bad username aborts with no repository operation performed. -/
def clientInitCheck (masterUser : String) : List String × Except String Unit :=
  if badUsername masterUser then
    ([], Except.error ("Bad username: " ++ masterUser))
  else
    (["_get_or_init_binsync_repo", "start_worker_thread", "_get_or_init_user_branch"],
      Except.ok ())

/-! ### Deriving `repo_root` from a remote URL
(`re.findall(r"/(.*)\.git", remote_url)[0]` in `_get_or_init_binsync_repo`) -/

/-- The characters of the literal `.git`. -/
def gitChars : List Char := ['.', 'g', 'i', 't']

/-- Whether `.git` occurs at position `i` of `s`. -/
def gitAt (s : List Char) (i : Nat) : Bool :=
  gitChars.isPrefixOf (s.drop i)

/-- Index of the first `/` in the URL: the leftmost position at which the
regex `/(.*)\.git` can start matching. -/
def firstSlashIdx (s : List Char) : Option Nat :=
  s.findIdx? (· == '/')

/-- Index of the last occurrence of `.git`: the greedy `(.*)` extends the
capture to the rightmost `.git`. -/
def lastGitIdx (s : List Char) : Option Nat :=
  ((List.range s.length).filter (gitAt s)).getLast?

/-- `re.findall(r"/(.*)\.git", url)[0]` over character lists: the first
match starts at the first `/`, and greediness makes the captured group run
from just after that `/` to just before the LAST `.git`; `none` when the
regex does not match anywhere (`findall` empty, `[0]` raises IndexError).
The model assumes newline-free URLs (`.` does not match a newline). -/
def deriveRepoRootL (s : List Char) : Option (List Char) :=
  match firstSlashIdx s, lastGitIdx s with
  | some i, some j => if i + 1 ≤ j then some ((s.drop (i + 1)).take (j - (i + 1))) else none
  | _, _ => none

/-- The `repo_root` derivation of `_get_or_init_binsync_repo` on strings. -/
def deriveRepoRoot (url : String) : Option String :=
  (deriveRepoRootL url.data).map (fun l => ⟨l⟩)

/-- The derivation the claim describes: the final path segment of the URL
with a trailing `.git` stripped.  Kept separate from `deriveRepoRoot`,
which renders what the source actually executes. -/
def finalSegmentRepoRoot (url : String) : String :=
  let seg := lastSegment url
  if pyEndsWith seg ".git" then ⟨seg.data.take (seg.data.length - 4)⟩ else seg

/-! ### Concrete fixtures used by counterexamples and witnesses -/

/-- A local head `binsync/alice`. -/
def aliceLocalRef : Ref := ⟨"binsync/alice", false, ⟨[("metadata.toml", "alice")], 1, "m1"⟩⟩

/-- A remote-tracking reference `origin/binsync/alice` of the configured
remote `origin`. -/
def aliceOriginRef : Ref := ⟨"origin/binsync/alice", true, ⟨[("metadata.toml", "alice")], 2, "m2"⟩⟩

/-- A client configuration: master user `alice`, remote `origin`. -/
def cfgAlice : ClientCfg := ⟨"alice", "origin"⟩

/-- A repository with a single `binsync/bob` branch whose head tree has no
`metadata.toml`. -/
def repoBobNoMetadata : Repo := ⟨[⟨"binsync/bob", false, ⟨[], 5, "m"⟩⟩], "binsync/bob", []⟩

/-- A repository with a single `binsync/alice` branch whose head tree has no
`metadata.toml`. -/
def repoAliceNoMetadata : Repo := ⟨[⟨"binsync/alice", false, ⟨[], 5, "m"⟩⟩], "binsync/alice", []⟩

/-- The head commit of the `binsync/alice` branch of `repoAliceSynced`. -/
def aliceSyncedCommit : Commit := ⟨[("alice/metadata.toml", "x")], 1, "m"⟩

/-- A repository whose `binsync/alice` head tree already contains exactly
what the state `aliceSyncedState` dumps. -/
def repoAliceSynced : Repo := ⟨[⟨"binsync/alice", false, aliceSyncedCommit⟩], "binsync/alice", []⟩

/-- A state of user `alice` whose serialization equals the content of the
`binsync/alice` head tree of `repoAliceSynced`. -/
def aliceSyncedState : State := ⟨"alice", [("metadata.toml", "x")], true⟩

/-- A repository whose root branch stores the binary hash blob `"\naa"`
(a LEADING newline before the hash). -/
def repoHashLeadingNL : Repo :=
  ⟨[⟨"binsync/__root__", false, ⟨[("binary_hash", "\naa")], 1, "Root commit"⟩⟩], "h", []⟩

/-- A repository whose root branch stores the binary hash blob `"aa\n"`. -/
def repoHashTrailingNL : Repo :=
  ⟨[⟨"binsync/__root__", false, ⟨[("binary_hash", "aa\n")], 1, "Root commit"⟩⟩], "h", []⟩

/-! ## Helper lemmas -/

theorem lookupA_setA (g k : String) (v : Ref) (l : List (String × Ref)) :
    lookupA g (setA k v l) = if g = k then some v else lookupA g l := by
  induction l with
  | nil => simp [setA, lookupA]
  | cons hd tl ih =>
      obtain ⟨k2, v2⟩ := hd
      by_cases hk : k = k2
      · subst hk
        by_cases hg : g = k <;> simp [setA, lookupA, hg]
      · by_cases hg : g = k2
        · subst hg
          have hgk : ¬g = k := fun h => hk h.symm
          simp [setA, lookupA, hk, hgk]
        · simp [setA, lookupA, hk, hg, ih]

theorem bestRefsStep_not_binsync (remote : String) (acc : List (String × Ref)) (r : Ref)
    (h : pyContains r.name (BINSYNC_BRANCH_PREFIX ++ "/") = false) :
    bestRefsStep remote acc r = acc := by
  unfold bestRefsStep
  simp [h]

theorem bestRefsStep_matching (remote : String) (acc : List (String × Ref)) (r : Ref)
    (hb : pyContains r.name (BINSYNC_BRANCH_PREFIX ++ "/") = true)
    (hm : matchingRemote remote r = true) :
    bestRefsStep remote acc r = setA (lastSegment r.name) r acc := by
  have hrem : r.is_remote = true := by
    simp only [matchingRemote, Bool.and_eq_true] at hm
    exact hm.1
  have hname : (Ref.remote_name r == remote) = true := by
    simp only [matchingRemote, Bool.and_eq_true] at hm
    exact hm.2
  unfold bestRefsStep
  simp only [hb, Bool.not_true, Bool.false_eq_true, if_false]
  cases lookupA (lastSegment r.name) acc <;> simp [hrem, bne, hname]

theorem bestRefsStep_not_matching (remote : String) (acc : List (String × Ref)) (r : Ref)
    (hb : pyContains r.name (BINSYNC_BRANCH_PREFIX ++ "/") = true)
    (hm : matchingRemote remote r = false) :
    bestRefsStep remote acc r =
      (match lookupA (lastSegment r.name) acc with
        | some _ => acc
        | none => setA (lastSegment r.name) r acc) := by
  have hcond : (!r.is_remote || (Ref.remote_name r != remote)) = true := by
    cases hr : r.is_remote with
    | false => simp
    | true =>
        simp only [matchingRemote, hr, Bool.true_and] at hm
        simp [bne, hm]
  unfold bestRefsStep
  simp only [hb, Bool.not_true, Bool.false_eq_true, if_false]
  cases lookupA (lastSegment r.name) acc <;> simp [hcond]

/-- The invariant of the candidate dictionary along the loop of
`_get_best_refs`: the candidate recorded for a group is the last
configured-remote reference of the group seen so far, else whatever the
dictionary already held, else the first reference of the group. -/
theorem bestRefs_foldl_lookup (remote g : String) (refs : List Ref) :
    ∀ acc : List (String × Ref),
      lookupA g (refs.foldl (bestRefsStep remote) acc) =
        match ((groupRefs g refs).filter (matchingRemote remote)).getLast? with
        | some r => some r
        | none => (lookupA g acc).or ((groupRefs g refs).head? ) := by
  induction refs with
  | nil => intro acc; simp [groupRefs]
  | cons r rest ih =>
      intro acc
      simp only [List.foldl_cons]
      rw [ih (bestRefsStep remote acc r)]
      by_cases hbs : pyContains r.name (BINSYNC_BRANCH_PREFIX ++ "/") = true
      · by_cases hseg : lastSegment r.name = g
        · -- `r` belongs to the group `g`
          have hgrp : groupRefs g (r :: rest) = r :: groupRefs g rest := by
            simp [groupRefs, List.filter_cons, hbs, hseg]
          by_cases hmr : matchingRemote remote r = true
          · -- a configured-remote reference always (re)places the candidate
            rw [bestRefsStep_matching remote acc r hbs hmr, hseg, hgrp]
            simp only [List.filter_cons, hmr, if_pos]
            rw [lookupA_setA]
            simp only [if_pos rfl]
            rw [List.getLast?_cons]
            cases hlast : ((groupRefs g rest).filter (matchingRemote remote)).getLast? with
            | none => simp [hlast]
            | some m => simp [hlast]
          · -- `r` does not replace an existing candidate
            have hmr' : matchingRemote remote r = false := by
              simpa using hmr
            rw [bestRefsStep_not_matching remote acc r hbs hmr', hseg, hgrp]
            have hgrpf :
                (r :: groupRefs g rest).filter (matchingRemote remote) =
                  (groupRefs g rest).filter (matchingRemote remote) := by
              simp [List.filter_cons, hmr']
            rw [hgrpf]
            cases hlast : ((groupRefs g rest).filter (matchingRemote remote)).getLast? with
            | some m => cases hacc : lookupA g acc <;> simp [hacc, lookupA_setA]
            | none =>
                cases hacc : lookupA g acc with
                | some c => simp [hacc]
                | none => simp [hacc, lookupA_setA]
        · -- `r` is a binsync ref of another group: group `g` is untouched
          have hg' : ¬g = lastSegment r.name := fun h => hseg h.symm
          have hgrp : groupRefs g (r :: rest) = groupRefs g rest := by
            simp [groupRefs, List.filter_cons, hseg]
          have hstep : lookupA g (bestRefsStep remote acc r) = lookupA g acc := by
            by_cases hmr : matchingRemote remote r = true
            · rw [bestRefsStep_matching remote acc r hbs hmr, lookupA_setA]
              simp [hg']
            · have hmr' : matchingRemote remote r = false := by simpa using hmr
              rw [bestRefsStep_not_matching remote acc r hbs hmr']
              cases lookupA (lastSegment r.name) acc with
              | some c => simp
              | none => rw [lookupA_setA]; simp [hg']
          rw [hgrp, hstep]
      · -- `r` is skipped: its name does not contain `binsync/`
        have hbs' : pyContains r.name (BINSYNC_BRANCH_PREFIX ++ "/") = false := by
          simpa using hbs
        have hgrp : groupRefs g (r :: rest) = groupRefs g rest := by
          simp [groupRefs, List.filter_cons, hbs']
        rw [hgrp, bestRefsStep_not_binsync remote acc r hbs']

/-! ## Claim C1 -/

/-- Claim C1 (counterexample): with a local `binsync/alice` head listed
before the remote-tracking `origin/binsync/alice` of the configured remote
`origin`, `_get_best_refs` selects the REMOTE reference for the group
`alice`, although a local reference for the group exists — the selection
does not prefer a local reference over a remote one. -/
theorem best_refs_local_not_preferred :
    lookupA "alice" (get_best_refs "origin" [aliceLocalRef, aliceOriginRef]) =
      some aliceOriginRef
    ∧ aliceOriginRef.is_remote = true
    ∧ aliceLocalRef ∈ [aliceLocalRef, aliceOriginRef]
    ∧ aliceLocalRef.is_remote = false
    ∧ pyContains aliceLocalRef.name (BINSYNC_BRANCH_PREFIX ++ "/") = true
    ∧ lastSegment aliceLocalRef.name = "alice" := by
  refine ⟨by decide, by decide, by decide, by decide, by decide, by decide⟩

/-- Claim C1 (amended): `_get_best_refs` groups the references whose names
contain `binsync/` by their last path segment; within each group the
selected reference is the LAST reference that is remote with remote name
equal to the configured remote, and only when the group has no such
reference is it the FIRST reference of the group (so a configured-remote
reference is preferred even over a local one that precedes it, while among
remotes only the configured remote can displace the incumbent). -/
theorem best_refs_selects_last_matching_remote (remote g : String) (refs : List Ref) :
    lookupA g (get_best_refs remote refs) = bestRefSpec remote g refs := by
  unfold get_best_refs bestRefSpec
  rw [bestRefs_foldl_lookup remote g refs []]
  cases ((groupRefs g refs).filter (matchingRemote remote)).getLast? with
  | some r => rfl
  | none => simp [lookupA]

/-! ## Claim C2 -/

/-- Claim C2 (counterexample): user `bob` differs from master user `alice`
and `bob`'s branch head has no metadata, so `State.parse` fails with
metadata-not-found — yet `get_state(user="bob")` does NOT propagate the
failure to the caller: it catches it and returns `None`. -/
theorem get_state_swallows_metadata_not_found :
    get_state cfgAlice repoBobNoMetadata (some "bob") = Except.ok none := by
  rfl

/-- Claim C2 (amended): when the tree of the requested user's branch has no
metadata (`State.parse` fails with `MetadataNotFoundError`), `get_state`
catches the failure: it returns a freshly synthesized empty `State` owned
by the master user when the requested user is the master user, and returns
`None` — not a propagated failure — otherwise. -/
theorem get_state_metadata_not_found (cfg : ClientCfg) (repo : Repo) (u : String) (t : Tree)
    (ht : get_tree u repo = Except.ok t)
    (hm : lookupTree t "metadata.toml" = none) :
    get_state cfg repo (some u) =
      Except.ok
        (if u = cfg.masterUser then some (State.emptyFor cfg.masterUser) else none) := by
  unfold get_state
  simp only [Option.getD_some, ht, State.parse, hm]
  by_cases h : u = cfg.masterUser <;> simp [h]

/-- Claim C2 (witness): the amended statement applied to the master user
`alice` over a repository whose `binsync/alice` head tree is empty. -/
theorem get_state_metadata_not_found_witness :
    get_state cfgAlice repoAliceNoMetadata (some "alice") =
      Except.ok
        (if "alice" = cfgAlice.masterUser then some (State.emptyFor cfgAlice.masterUser)
          else none) :=
  get_state_metadata_not_found cfgAlice repoAliceNoMetadata "alice" [] (by rfl) (by rfl)

/-! ## Claim C3 -/

/-- Claim C3: `commit_state` on a state whose user differs from the master
user raises the external-user-commit error and leaves the repository — its
references (branches), `HEAD`, index and working tree — exactly as before
the call, with `_last_commit_ts` and the state's dirty flag untouched and
no commit created.  The authorization check is the first statement of the
function, before the checkout. -/
theorem commit_state_external_user (cfg : ClientCfg) (repo : Repo) (ts : Option Nat)
    (now : Nat) (st : State) (msg : String) (h : st.user ≠ cfg.masterUser) :
    commit_state cfg repo ts now st msg =
      ⟨repo, ts, st.dirty,
        some (CommitErr.externalUserCommit cfg.masterUser st.user), none⟩ := by
  unfold commit_state
  rw [if_pos (Ne.symm h)]

/-- Claim C3 (witness): a `bob` state submitted to an `alice` client. -/
theorem commit_state_external_user_witness :
    commit_state cfgAlice repoAliceSynced (some 3) 9 ⟨"bob", [], true⟩ "msg" =
      ⟨repoAliceSynced, some 3, true,
        some (CommitErr.externalUserCommit "alice" "bob"), none⟩ :=
  commit_state_external_user cfgAlice repoAliceSynced (some 3) 9 ⟨"bob", [], true⟩ "msg"
    (by decide)

/-! ## Claim C4 -/

/-- Claim C4: `commit_state` on a master-owned state whose serialization
into the index does not differ from the tree at the head of the checked-out
user branch returns without creating a commit: no error, no new commit, the
branch heads (in particular the user branch head) unchanged, and
`_last_commit_ts` unchanged. -/
theorem commit_state_noop (cfg : ClientCfg) (repo : Repo) (ts : Option Nat) (now : Nat)
    (st : State) (msg : String) (b : Ref)
    (hu : st.user = cfg.masterUser)
    (hb : findBranch repo (user_branch_name cfg) = some b)
    (hd : dumpState st b.commit.tree = b.commit.tree) :
    (commit_state cfg repo ts now st msg).newCommit = none
    ∧ (commit_state cfg repo ts now st msg).err = none
    ∧ (commit_state cfg repo ts now st msg).lastCommitTs = ts
    ∧ (commit_state cfg repo ts now st msg).repo.refs = repo.refs := by
  unfold commit_state checkout
  simp [hb, hu, hd]

/-- Claim C4 (witness): a state already reflected byte-for-byte in the
`binsync/alice` head tree commits nothing. -/
theorem commit_state_noop_witness :
    (commit_state cfgAlice repoAliceSynced (some 3) 9 aliceSyncedState "msg").newCommit = none
    ∧ (commit_state cfgAlice repoAliceSynced (some 3) 9 aliceSyncedState "msg").err = none
    ∧ (commit_state cfgAlice repoAliceSynced (some 3) 9 aliceSyncedState "msg").lastCommitTs =
        some 3
    ∧ (commit_state cfgAlice repoAliceSynced (some 3) 9 aliceSyncedState "msg").repo.refs =
        repoAliceSynced.refs :=
  commit_state_noop cfgAlice repoAliceSynced (some 3) 9 aliceSyncedState "msg"
    ⟨"binsync/alice", false, aliceSyncedCommit⟩ (by decide) (by decide) (by decide)

/-! ## Claim C6 -/

/-- Claim C6: a call through the `atomic_git_action` wrapper made without
`no_cache` returns a cache hit immediately, without submitting any job to
the scheduler and without touching the cache; on a cache miss the job is
scheduled and the caller blocks on it, the job's outcome is returned
(failures re-raised), and a value is installed into the cache exactly when
the job completed successfully. -/
theorem atomic_cache_contract {V E : Type} (v : V) (job : Except E V) :
    atomic_git_action false (some v) job =
        ⟨false, Except.ok v, none⟩
    ∧ (atomic_git_action false none job).scheduled = true
    ∧ (atomic_git_action false none job).result = job
    ∧ (atomic_git_action false none job).cacheInstalled =
        (match job with | Except.ok w => some w | Except.error _ => none) := by
  refine ⟨rfl, ?_, ?_, ?_⟩ <;> cases job <;> rfl

/-! ## Claim C9 -/

/-- Claim C9: `ssh_agent_env` returns exactly the two-entry map with
`SSH_AGENT_PID` mapped to `str(pid)` and `SSH_AUTH_SOCK` mapped to
`str(sock)` when both hints are supplied, and the empty map whenever either
is missing. -/
theorem ssh_agent_env_spec (pid : Int) (sock : String) (p : Option Int)
    (s : Option String) :
    ssh_agent_env (some pid) (some sock) =
        [("SSH_AGENT_PID", toString pid), ("SSH_AUTH_SOCK", sock)]
    ∧ ssh_agent_env none s = []
    ∧ ssh_agent_env p none = [] := by
  refine ⟨rfl, by cases s <;> rfl, by cases p <;> rfl⟩

/-! ## Claim C10 -/

/-- Claim C10: when no repository reference name ends with
`binsync/<user>`, `get_state(user=u)` surfaces the `ValueError` raised by
`_get_tree` (the no-such-user error) instead of returning `None` or a
synthesized state: the only failure caught inside `get_state` is the
metadata-not-found one, and it can only arise after `_get_tree` succeeded. -/
theorem get_state_no_such_user (cfg : ClientCfg) (repo : Repo) (u : String)
    (h : ∀ r ∈ repo.refs,
      pyEndsWith r.name (BINSYNC_BRANCH_PREFIX ++ "/" ++ u) = false) :
    get_state cfg repo (some u) = Except.error (GetStateErr.noSuchUser u) := by
  have hfil : repo.refs.filter
      (fun r => pyEndsWith r.name (BINSYNC_BRANCH_PREFIX ++ "/" ++ u)) = [] :=
    List.filter_eq_nil_iff.mpr (fun a ha => by simp [h a ha])
  unfold get_state get_tree
  simp [hfil]

/-- Claim C10 (witness): the user `carol` has no reference in a repository
holding only `alice` branches. -/
theorem get_state_no_such_user_witness :
    get_state cfgAlice repoAliceSynced (some "carol") =
      Except.error (GetStateErr.noSuchUser "carol") :=
  get_state_no_such_user cfgAlice repoAliceSynced "carol" (by decide)

/-! ## Claim C7 -/

theorem containsSub_infix_iff (n h : List Char) : containsSub n h = true ↔ n <:+: h := by
  induction h with
  | nil => simp [containsSub, List.isPrefixOf_iff_prefix]
  | cons a t ih => simp [containsSub, List.isPrefixOf_iff_prefix, List.infix_cons_iff, ih]

/-- Claim C7: the construction-time username check errors exactly for the
usernames that end with the path separator `/` or contain the substring
`__root__`; on a bad username the construction aborts before any repository
operation is performed, and on every other username the check passes and
the repository operations follow. -/
theorem client_init_username_check (u : String) :
    ((clientInitCheck u).2 = Except.error ("Bad username: " ++ u) ↔
      (['/'] <:+ u.data ∨ "__root__".data <:+: u.data))
    ∧ ((['/'] <:+ u.data ∨ "__root__".data <:+: u.data) → (clientInitCheck u).1 = [])
    ∧ (¬(['/'] <:+ u.data ∨ "__root__".data <:+: u.data) →
        (clientInitCheck u).2 = Except.ok () ∧ (clientInitCheck u).1 ≠ []) := by
  have hsfx : pyEndsWith u "/" = true ↔ ['/'] <:+ u.data := by
    have hd : ("/" : String).data = ['/'] := rfl
    rw [pyEndsWith, hd, List.isSuffixOf_iff_suffix]
  have hinf : pyContains u "__root__" = true ↔ "__root__".data <:+: u.data :=
    containsSub_infix_iff _ _
  have hbad : badUsername u = true ↔
      (['/'] <:+ u.data ∨ "__root__".data <:+: u.data) := by
    rw [badUsername, Bool.or_eq_true, hsfx, hinf]
  by_cases hb : badUsername u = true
  · have hprop := hbad.mp hb
    refine ⟨⟨fun _ => hprop, fun _ => ?_⟩, fun _ => ?_, fun hc => absurd hprop hc⟩
    · simp [clientInitCheck, hb]
    · simp [clientInitCheck, hb]
  · have hprop : ¬(['/'] <:+ u.data ∨ "__root__".data <:+: u.data) :=
      fun hp => hb (hbad.mpr hp)
    refine ⟨⟨fun he => ?_, fun hp => absurd hp hprop⟩, fun hp => absurd hp hprop,
      fun _ => ⟨?_, ?_⟩⟩
    · rw [clientInitCheck, if_neg hb] at he
      exact absurd he (by simp)
    · rw [clientInitCheck, if_neg hb]
    · rw [clientInitCheck, if_neg hb]
      simp

/-- Claim C7 (witness): username `bob/` fails the check. -/
theorem client_init_username_check_witness :
    (clientInitCheck "bob/").2 = Except.error ("Bad username: " ++ "bob/") :=
  (client_init_username_check "bob/").1.mpr (Or.inl (by decide))

/-! ## Claim C8 -/

theorem findIdx?_append_first {α : Type} (p : α → Bool) (l1 l2 : List α) (x : α)
    (h : ∀ c ∈ l1, p c = false) (hx : p x = true) :
    (l1 ++ x :: l2).findIdx? p = some l1.length := by
  induction l1 with
  | nil => simp [hx]
  | cons c t ih =>
      have hc : p c = false := h c (by simp)
      have ht : ∀ c2 ∈ t, p c2 = false := fun c2 hc2 => h c2 (by simp [hc2])
      simp only [List.cons_append, List.findIdx?_cons, hc, Bool.false_eq_true, if_false]
      rw [List.findIdx?_succ, ih ht]
      simp

theorem getLast?_filter_range (q : Nat → Bool) (n m : Nat) (hq : q m = true)
    (hmn : m < n) (hmax : ∀ k, m < k → q k = false) :
    ((List.range n).filter q).getLast? = some m := by
  induction n with
  | zero => omega
  | succ n ih =>
      rw [List.range_succ, List.filter_append]
      by_cases hnm : n = m
      · subst hnm
        simp [List.filter_cons, hq, List.getLast?_concat]
      · have hqn : q n = false := hmax n (by omega)
        simp only [List.filter_cons, hqn, Bool.false_eq_true, if_false, List.filter_nil,
          List.append_nil]
        exact ih (by omega)

theorem isPrefixOf_length_le {α : Type} [BEq α] [LawfulBEq α] {l1 l2 : List α}
    (h : l1.isPrefixOf l2 = true) : l1.length ≤ l2.length := by
  rw [List.isPrefixOf_iff_prefix] at h
  exact h.length_le

theorem gitAt_false_of_short (s : List Char) (k : Nat) (hk : s.length < k + 4) :
    gitAt s k = false := by
  unfold gitAt
  by_contra hc
  simp only [Bool.not_eq_false] at hc
  have hle := isPrefixOf_length_le hc
  simp only [List.length_drop, gitChars, List.length_cons, List.length_nil] at hle
  omega

theorem deriveRepoRootL_between (p s : List Char) (hp : ∀ c ∈ p, c ≠ '/') :
    deriveRepoRootL (p ++ '/' :: (s ++ gitChars)) = some s := by
  have h1 : firstSlashIdx (p ++ '/' :: (s ++ gitChars)) = some p.length := by
    unfold firstSlashIdx
    refine findIdx?_append_first _ p _ '/' (fun c hc => ?_) (by simp)
    have := hp c hc
    simp [this]
  have h2 : gitAt (p ++ '/' :: (s ++ gitChars)) (p.length + 1 + s.length) = true := by
    unfold gitAt
    have hshape : p ++ '/' :: (s ++ gitChars) = (p ++ '/' :: s) ++ gitChars := by
      simp
    have hlen : (p ++ '/' :: s).length = p.length + 1 + s.length := by
      simp only [List.length_append, List.length_cons]
      omega
    rw [hshape, List.drop_left' hlen]
    decide
  have h3 : lastGitIdx (p ++ '/' :: (s ++ gitChars)) = some (p.length + 1 + s.length) := by
    unfold lastGitIdx
    have hlenW : (p ++ '/' :: (s ++ gitChars)).length = p.length + 1 + s.length + 4 := by
      simp only [List.length_append, List.length_cons, gitChars, List.length_nil]
      omega
    refine getLast?_filter_range _ _ _ h2 (by omega) (fun k hk => ?_)
    exact gitAt_false_of_short _ _ (by omega)
  unfold deriveRepoRootL
  rw [h1, h3]
  dsimp only
  rw [if_pos (by omega : p.length + 1 ≤ p.length + 1 + s.length)]
  have hdrop : (p ++ '/' :: (s ++ gitChars)).drop (p.length + 1) = s ++ gitChars := by
    have hshape : p ++ '/' :: (s ++ gitChars) = (p ++ ['/']) ++ (s ++ gitChars) := by
      simp
    have hlen : (p ++ ['/']).length = p.length + 1 := by simp
    rw [hshape, List.drop_left' hlen]
  have harith : p.length + 1 + s.length - (p.length + 1) = s.length := by omega
  rw [hdrop, harith, List.take_left]

/-- Claim C8 (counterexample): for the URL
`https://example.com/x/repo.git` the source derives `repo_root` as
`/example.com/x/repo` — everything between the first `/` and the last
`.git` — not the final path segment `repo` described by the claim. -/
theorem derive_repo_root_not_final_segment :
    deriveRepoRoot "https://example.com/x/repo.git" = some "/example.com/x/repo"
    ∧ finalSegmentRepoRoot "https://example.com/x/repo.git" = "repo"
    ∧ ("/example.com/x/repo" : String) ≠ "repo" := by
  refine ⟨by decide, by decide, by decide⟩

/-- Claim C8 (amended): when `repo_root` is empty and a `remote_url` is
supplied, the derived `repo_root` is the substring of the URL strictly
between the first `/` and the last `.git` (so only for URLs whose single
`/` directly precedes the final segment — e.g. ssh-style
`git@host:repo.git` — does it coincide with the final path segment with
`.git` stripped).  Stated for any URL decomposed as
`<slash-free p> / <s> .git`; newline-free inputs match the semantics of
the Python regex `.`. -/
theorem derive_repo_root_between (p s : String)
    (hp : ∀ c ∈ p.data, c ≠ '/')
    (_hnp : '\n' ∉ p.data) (_hns : '\n' ∉ s.data) :
    deriveRepoRoot (p ++ "/" ++ s ++ ".git") = some s := by
  have hdata : (p ++ "/" ++ s ++ ".git").data = p.data ++ '/' :: (s.data ++ gitChars) := by
    simp [String.data_append, gitChars]
  unfold deriveRepoRoot
  rw [hdata, deriveRepoRootL_between p.data s.data hp]
  rfl

/-- Claim C8 (witness): the amended derivation on the ssh-style URL
`git@example.com:a/repo.git`, where it yields `repo`. -/
theorem derive_repo_root_between_witness :
    deriveRepoRoot ("git@example.com:a" ++ "/" ++ "repo" ++ ".git") = some "repo" :=
  derive_repo_root_between "git@example.com:a" "repo" (by decide) (by decide) (by decide)

/-! ## Claim C5 -/

theorem dropWhile_nl_replicate (n : Nat) :
    (List.replicate n '\n').dropWhile (· == '\n') = [] := by
  induction n with
  | zero => rfl
  | succ n ih => simp [List.replicate_succ, ih]

theorem dropWhile_nl_replicate_append (n : Nat) (l : List Char) :
    (List.replicate n '\n' ++ l).dropWhile (· == '\n') = l.dropWhile (· == '\n') := by
  induction n with
  | zero => rfl
  | succ n ih => simp [List.replicate_succ, ih]

theorem dropWhile_nl_of_head (l : List Char) (h : l.head? ≠ some '\n') :
    l.dropWhile (· == '\n') = l := by
  cases l with
  | nil => rfl
  | cons a t =>
      have ha : ¬(a == '\n') = true := by
        intro hab
        exact h (by simp at hab; simp [hab])
      simp [List.dropWhile_cons, ha]

theorem takeWhile_nl_replicate (l : List Char) :
    l.takeWhile (· == '\n') = List.replicate (l.takeWhile (· == '\n')).length '\n' := by
  rw [List.eq_replicate_iff]
  refine ⟨rfl, fun b hb => ?_⟩
  have := List.mem_takeWhile_imp hb
  simpa using this

/-- Python `strip("\n")` characterized declaratively: the result is `v`
exactly when the input is `v` wrapped in `'\n'`-padding on both sides
(provided `v` itself starts and ends with something other than `'\n'`). -/
theorem stripNLChars_eq_iff (l v : List Char)
    (hh : v.head? ≠ some '\n') (hl : v.getLast? ≠ some '\n') :
    stripNLChars l = v ↔
      ∃ n m : Nat, l = List.replicate n '\n' ++ v ++ List.replicate m '\n' := by
  constructor
  · intro h
    have hd1eq : l.dropWhile (· == '\n') =
        v ++ ((l.dropWhile (· == '\n')).reverse.takeWhile (· == '\n')).reverse := by
      have hsplit2 :
          (l.dropWhile (· == '\n')).reverse =
            (l.dropWhile (· == '\n')).reverse.takeWhile (· == '\n') ++
              (l.dropWhile (· == '\n')).reverse.dropWhile (· == '\n') :=
        (List.takeWhile_append_dropWhile _ _).symm
      have hv : (l.dropWhile (· == '\n')).reverse.dropWhile (· == '\n') = v.reverse := by
        have hc : stripNLChars l = v := h
        rw [stripNLChars] at hc
        rw [← hc, List.reverse_reverse]
      have h2 := congrArg List.reverse hsplit2
      rwa [List.reverse_reverse, List.reverse_append, hv, List.reverse_reverse] at h2
    have htwrev : ((l.dropWhile (· == '\n')).reverse.takeWhile (· == '\n')).reverse =
        List.replicate
          ((l.dropWhile (· == '\n')).reverse.takeWhile (· == '\n')).length '\n' := by
      conv_lhs => rw [takeWhile_nl_replicate ((l.dropWhile (· == '\n')).reverse)]
      rw [List.reverse_replicate]
    refine ⟨(l.takeWhile (· == '\n')).length,
      ((l.dropWhile (· == '\n')).reverse.takeWhile (· == '\n')).length, ?_⟩
    calc l = l.takeWhile (· == '\n') ++ l.dropWhile (· == '\n') :=
          (List.takeWhile_append_dropWhile _ _).symm
      _ = List.replicate (l.takeWhile (· == '\n')).length '\n' ++
            (v ++ List.replicate
              ((l.dropWhile (· == '\n')).reverse.takeWhile (· == '\n')).length '\n') := by
          conv_lhs => rw [takeWhile_nl_replicate l, hd1eq, htwrev]
      _ = List.replicate (l.takeWhile (· == '\n')).length '\n' ++ v ++
            List.replicate
              ((l.dropWhile (· == '\n')).reverse.takeWhile (· == '\n')).length '\n' :=
          (List.append_assoc _ _ _).symm
  · rintro ⟨n, m, rfl⟩
    rw [stripNLChars, List.append_assoc, dropWhile_nl_replicate_append]
    cases v with
    | nil =>
        simp [dropWhile_nl_replicate]
    | cons a t =>
        have ha : (a == '\n') = false := by
          cases hab : (a == '\n') with
        | false => rfl
        | true => exact absurd (by simp at hab; simp [hab]) hh
        rw [List.cons_append]
        simp only [List.dropWhile_cons, ha, Bool.false_eq_true, if_false]
        rw [← List.cons_append, List.reverse_append, List.reverse_replicate,
          dropWhile_nl_replicate_append]
        rw [dropWhile_nl_of_head _ (by rw [List.head?_reverse]; exact hl)]
        exact List.reverse_reverse _

/-- Claim C5 (counterexample): the stored blob `"\naa"` (one LEADING
newline) and supplied hash `"aa"`: under the claim's trailing-only strip
the two differ, so the claim requires a HASH_MISMATCH warning — but the
source strips newlines from both ends and records no warning at all. -/
theorem hash_check_strips_leading_newlines :
    hash_check_warnings repoHashLeadingNL "aa" = some []
    ∧ stripTrailingNewlines "\naa" ≠ "aa"
    ∧ (if stripTrailingNewlines "\naa" ≠ "aa" then [HASH_MISMATCH] else []) =
        [HASH_MISMATCH] := by
  refine ⟨by decide, by decide, by decide⟩

/-- Claim C5 (amended): the hash-comparison step of construction always
completes (the warning is non-fatal either way) and appends HASH_MISMATCH
exactly when the supplied hash differs from the stored blob with newlines
stripped from BOTH ends — equivalently, no warning is recorded exactly when
the stored blob is the supplied hash surrounded by leading and trailing
newline padding. -/
theorem hash_check_mismatch_iff (repo : Repo) (supplied raw : String) (rr : Ref)
    (rest : List Ref)
    (hroot : repo.refs.filter (fun r => pyEndsWith r.name BINSYNC_ROOT_BRANCH) = rr :: rest)
    (hblob : lookupTree rr.commit.tree "binary_hash" = some raw)
    (hh : supplied.data.head? ≠ some '\n')
    (hl : supplied.data.getLast? ≠ some '\n') :
    hash_check_warnings repo supplied =
      some (if pyStripNewlines raw = supplied then [] else [HASH_MISMATCH])
    ∧ (pyStripNewlines raw = supplied ↔
        ∃ n m : Nat, raw.data =
          List.replicate n '\n' ++ supplied.data ++ List.replicate m '\n') := by
  constructor
  · rw [hash_check_warnings, get_stored_hash, hroot]
    dsimp only
    rw [hblob]
    by_cases hc : pyStripNewlines raw = supplied <;> simp [hc]
  · have hmk : pyStripNewlines raw = supplied ↔ stripNLChars raw.data = supplied.data :=
      String.ext_iff
    rw [hmk]
    exact stripNLChars_eq_iff raw.data supplied.data hh hl

/-- Claim C5 (witness): the amended statement applied to a repository whose
root branch stores `"aa\n"` and a supplied hash `"aa"` — the strip makes
them equal, so the step yields no warning. -/
theorem hash_check_mismatch_iff_witness :
    (hash_check_warnings repoHashTrailingNL "aa" =
      some (if pyStripNewlines "aa\n" = "aa" then [] else [HASH_MISMATCH]))
    ∧ (pyStripNewlines "aa\n" = "aa" ↔
        ∃ n m : Nat, ("aa\n" : String).data =
          List.replicate n '\n' ++ ("aa" : String).data ++ List.replicate m '\n') :=
  hash_check_mismatch_iff repoHashTrailingNL "aa" "aa\n"
    ⟨"binsync/__root__", false, ⟨[("binary_hash", "aa\n")], 1, "Root commit"⟩⟩ []
    (by decide) (by decide) (by decide) (by decide)

end Binsync
